import Mathlib

/-!
Shallow embedding of the stock analysis pipeline (`src/main.py`):
the indicator engine, the signal classifier (`analyze_stock`), and the
ranker (`suggest_best_trade`).

Floating-point values produced by pandas are modelled by `PFloat`:
a rational number, positive or negative infinity, or NaN, with the
IEEE-style comparison semantics that numpy/pandas use (every comparison
with NaN is false; infinities compare as expected).  Input adjusted
closes are assumed to be finite and are modelled as rationals.
-/

/-- A pandas/numpy floating-point value: finite (modelled exactly as a
rational), `+inf`, `-inf`, or NaN. -/
inductive PFloat where
  | fin (q : ℚ)
  | pinf
  | ninf
  | nan
deriving Repr, DecidableEq

namespace PFloat

/-- Whether the value is NaN. -/
def isNan : PFloat → Bool
  | nan => true
  | _ => false

/-- IEEE-style strict greater-than: any comparison involving NaN is false. -/
def pfGt : PFloat → PFloat → Bool
  | fin a, fin b => b < a
  | fin _, ninf => true
  | pinf, fin _ => true
  | pinf, ninf => true
  | _, _ => false

/-- IEEE-style equality: NaN is equal to nothing, infinities equal themselves. -/
def pfEq : PFloat → PFloat → Bool
  | fin a, fin b => a == b
  | pinf, pinf => true
  | ninf, ninf => true
  | _, _ => false

/-- IEEE-style greater-or-equal. -/
def pfGe (a b : PFloat) : Bool := pfGt a b || pfEq a b

end PFloat

/-- One step of `df['Adj Close'].pct_change() * 100`: the percentage return
from `prev` to `cur`.  Float division by a zero previous close yields a
signed infinity (or NaN for 0/0), exactly as numpy does — it does not raise. -/
def pctRet (prev cur : ℚ) : PFloat :=
  if prev = 0 then
    if 0 < cur then PFloat.pinf
    else if cur < 0 then PFloat.ninf
    else PFloat.nan
  else PFloat.fin ((cur - prev) / prev * 100)

/-- `df['Adj Close'].pct_change() * 100` over the whole series: one entry per
input bar, the first being NaN. -/
def dailyReturns : List ℚ → List PFloat
  | [] => []
  | c :: cs => PFloat.nan :: List.zipWith pctRet (c :: cs) cs

/-- `df['Adj Close'].rolling(window=5).mean()`: one entry per input bar,
NaN until five bars exist, then the mean of the five closes ending at the
current bar. -/
def sma5List (closes : List ℚ) : List PFloat :=
  (List.range closes.length).map fun i =>
    if 4 ≤ i then PFloat.fin (((closes.drop (i - 4)).take 5).sum / 5)
    else PFloat.nan

/-- `series.tail(5)`: the last `min 5 n` entries. -/
def tail5 {α : Type} (l : List α) : List α := l.drop (l.length - 5)

/-- The per-ticker dataframe: the fetched `Adj Close` column plus the two
derived columns, which are absent (`none`) until `analyze_stock` assigns
them. -/
structure StockDf where
  adjClose : List ℚ
  dailyReturnPct : Option (List PFloat)
  sma5 : Option (List PFloat)
deriving Repr, DecidableEq

/-- The analysis record built by `analyze_stock`. -/
structure Analysis where
  ticker : String
  lastClose : ℚ
  lastReturnPct : PFloat
  sma5 : PFloat
  trendScore : ℕ
  tradeSignal : Bool
  reason : String
deriving Repr, DecidableEq

/-- `analyze_stock(ticker, df)`.  The function mutates its argument:
it assigns the two derived columns on `df` before reading the last row, so
the updated dataframe is returned alongside the analysis.  Reading the last
row (`df.iloc[-1]`) fails on an empty series, modelled by `none`. -/
def analyzeStock (ticker : String) (df : StockDf) : StockDf × Option Analysis :=
  let rets := dailyReturns df.adjClose
  let smas := sma5List df.adjClose
  let dfUpd : StockDf := { df with dailyReturnPct := some rets, sma5 := some smas }
  match df.adjClose.getLast?, rets.getLast?, smas.getLast? with
  | some lastClose, some lastRet, some sma =>
    let trendScore := (tail5 rets).countP fun r => PFloat.pfGt r (PFloat.fin 0)
    let tradeSignal := PFloat.pfGt (PFloat.fin lastClose) sma &&
      PFloat.pfGt lastRet (PFloat.fin 0)
    let reason := if tradeSignal then "Price above 5-day SMA with positive momentum"
      else "No strong bullish signal"
    (dfUpd, some { ticker := ticker, lastClose := lastClose, lastReturnPct := lastRet,
                   sma5 := sma, trendScore := trendScore, tradeSignal := tradeSignal,
                   reason := reason })
  | _, _, _ => (dfUpd, none)

/-- The main loop: analyze each ticker in turn and collect the analyses. -/
def collectAnalyses (data : List (String × StockDf)) : List Analysis :=
  data.foldr (fun td acc =>
    match (analyzeStock td.1 td.2).2 with
    | some a => a :: acc
    | none => acc) []

/-- The composite ranking key, compared descending: Python's tuple ordering
on `(Trend Score, Last Return %)`, as a non-strict "key of `a` is at least
key of `b`". -/
def rankGe (a b : Analysis) : Bool :=
  b.trendScore < a.trendScore ||
    (a.trendScore == b.trendScore && PFloat.pfGe a.lastReturnPct b.lastReturnPct)

/-- Insert into a descending-sorted list, placing `x` before the first
element whose key it at least matches (so, among equal keys, earlier input
elements come first — the stability of Python's `sorted`). -/
def insertDesc {α : Type} (ge : α → α → Bool) (x : α) : List α → List α
  | [] => [x]
  | y :: ys => if ge x y then x :: y :: ys else y :: insertDesc ge x ys

/-- Stable descending sort, modelling `sorted(candidates, key=..., reverse=True)`. -/
def sortDesc {α : Type} (ge : α → α → Bool) : List α → List α
  | [] => []
  | x :: xs => insertDesc ge x (sortDesc ge xs)

/-- The first element attaining the maximum under `ge` (ties broken towards
the front of the list). -/
def firstMaxBy {α : Type} (ge : α → α → Bool) : List α → Option α
  | [] => none
  | x :: xs =>
    match firstMaxBy ge xs with
    | none => some x
    | some m => if ge x m then some x else some m

/-- `suggest_best_trade(analyses)`: filter to signaled candidates; `none`
models the printed "no strong trade candidates" outcome; otherwise the head
of the stable descending sort. -/
def suggestBestTrade (analyses : List Analysis) : Option Analysis :=
  let candidates := analyses.filter fun a => a.tradeSignal
  if candidates.isEmpty then none
  else (sortDesc rankGe candidates).head?

/-! ### Concrete sample data used by witnesses -/

/-- The worked example of the spec: adjusted closes, most recent last. -/
def sampleCloses : List ℚ := [10, 11, 9, 12, 13, 14]

/-- A fetched dataframe holding the sample closes, derived columns absent. -/
def sampleDf : StockDf := ⟨sampleCloses, none, none⟩

/-- The analysis `analyze_stock` produces on `sampleDf`. -/
def sampleAnalysis : Analysis :=
  { ticker := "A", lastClose := 14, lastReturnPct := PFloat.fin (100/13),
    sma5 := PFloat.fin (59/5), trendScore := 4, tradeSignal := true,
    reason := "Price above 5-day SMA with positive momentum" }

/-- Ranker example analysis: score 3, return 2, signalled. -/
def rankA : Analysis :=
  { ticker := "RA", lastClose := 10, lastReturnPct := PFloat.fin 2,
    sma5 := PFloat.fin 9, trendScore := 3, tradeSignal := true, reason := "up" }

/-- Ranker example analysis: score 4, return 1, signalled. -/
def rankB : Analysis :=
  { ticker := "RB", lastClose := 20, lastReturnPct := PFloat.fin 1,
    sma5 := PFloat.fin 19, trendScore := 4, tradeSignal := true, reason := "up" }

/-- Ranker example analysis: score 4, return 1, not signalled. -/
def rankC : Analysis :=
  { ticker := "RC", lastClose := 30, lastReturnPct := PFloat.fin 1,
    sma5 := PFloat.fin 31, trendScore := 4, tradeSignal := false, reason := "down" }

/-- The ranker example collection of the spec. -/
def rankList : List Analysis := [rankA, rankB, rankC]

/-- Tie example: same key as `tieE`, earlier in the input. -/
def tieD : Analysis :=
  { ticker := "TD", lastClose := 10, lastReturnPct := PFloat.fin 1,
    sma5 := PFloat.fin 9, trendScore := 4, tradeSignal := true, reason := "up" }

/-- Tie example: same key as `tieD`, later in the input. -/
def tieE : Analysis :=
  { ticker := "TE", lastClose := 50, lastReturnPct := PFloat.fin 1,
    sma5 := PFloat.fin 49, trendScore := 4, tradeSignal := true, reason := "up" }

/-- The tie example collection. -/
def tieList : List Analysis := [tieD, tieE]

/-! ### Lemmas about the stable descending sort used by the ranker -/

theorem insertDesc_head {α : Type} (ge : α → α → Bool) (x : α) (l : List α) :
    (insertDesc ge x l).head? = some (match l.head? with
      | none => x
      | some y => if ge x y then x else y) := by
  cases l with
  | nil => rfl
  | cons y ys => by_cases h : ge x y <;> simp [insertDesc, h]

theorem sortDesc_head (ge : Analysis → Analysis → Bool) (l : List Analysis) :
    (sortDesc ge l).head? = firstMaxBy ge l := by
  induction l with
  | nil => rfl
  | cons x xs ih =>
    cases h : firstMaxBy ge xs with
    | none => simp [sortDesc, firstMaxBy, insertDesc_head, ih, h]
    | some m =>
      by_cases hge : ge x m <;>
        simp [sortDesc, firstMaxBy, insertDesc_head, ih, h, hge]

theorem firstMaxBy_mem {α : Type} (ge : α → α → Bool) (l : List α) (m : α)
    (h : firstMaxBy ge l = some m) : m ∈ l := by
  induction l generalizing m with
  | nil => simp [firstMaxBy] at h
  | cons x xs ih =>
    rw [firstMaxBy] at h
    cases h2 : firstMaxBy ge xs with
    | none => rw [h2] at h; simp at h; simp [h]
    | some m2 =>
      rw [h2] at h
      by_cases hge : ge x m2
      · simp [hge] at h; simp [h]
      · simp [hge] at h
        exact List.mem_cons_of_mem x (h ▸ ih m2 h2)

theorem firstMaxBy_eq_none {α : Type} (ge : α → α → Bool) (l : List α) :
    firstMaxBy ge l = none ↔ l = [] := by
  cases l with
  | nil => simp [firstMaxBy]
  | cons x xs =>
    simp only [firstMaxBy]
    cases h : firstMaxBy ge xs with
    | none => simp
    | some m => by_cases hge : ge x m <;> simp [hge]

theorem firstMaxBy_max {α : Type} (ge : α → α → Bool) (l : List α) (m : α)
    (htot : ∀ a ∈ l, ∀ b ∈ l, ge a b = true ∨ ge b a = true)
    (htrans : ∀ a ∈ l, ∀ b ∈ l, ∀ c ∈ l,
      ge a b = true → ge b c = true → ge a c = true)
    (h : firstMaxBy ge l = some m) : ∀ a ∈ l, ge m a = true := by
  induction l generalizing m with
  | nil => simp [firstMaxBy] at h
  | cons x xs ih =>
    rw [firstMaxBy] at h
    cases h2 : firstMaxBy ge xs with
    | none =>
      rw [h2] at h
      simp only [Option.some.injEq] at h
      have hxs : xs = [] := (firstMaxBy_eq_none ge xs).mp h2
      subst hxs h
      intro a ha
      simp only [List.mem_singleton] at ha
      subst ha
      rcases htot a (by simp) a (by simp) with h | h <;> exact h
    | some m2 =>
      rw [h2] at h
      have hm2 : m2 ∈ xs := firstMaxBy_mem ge xs m2 h2
      have ihm2 : ∀ a ∈ xs, ge m2 a = true := by
        refine ih m2 ?_ ?_ h2
        · intro a ha b hb
          exact htot a (List.mem_cons_of_mem x ha) b (List.mem_cons_of_mem x hb)
        · intro a ha b hb c hc
          exact htrans a (List.mem_cons_of_mem x ha) b (List.mem_cons_of_mem x hb)
            c (List.mem_cons_of_mem x hc)
      by_cases hge : ge x m2
      · simp [hge] at h
        subst h
        intro a ha
        rcases List.mem_cons.mp ha with rfl | ha
        · rcases htot a (by simp) a (by simp) with h | h <;> exact h
        · exact htrans x (by simp) m2 (List.mem_cons_of_mem x hm2)
            a (List.mem_cons_of_mem x ha) hge (ihm2 a ha)
      · simp [hge] at h
        subst h
        intro a ha
        rcases List.mem_cons.mp ha with rfl | ha
        · rcases htot a (by simp) m2 (List.mem_cons_of_mem a hm2) with h | h
          · rw [h] at hge; simp at hge
          · exact h
        · exact ihm2 a ha

theorem firstMaxBy_split {α : Type} (ge : α → α → Bool) (l : List α) (m : α)
    (h : firstMaxBy ge l = some m) :
    ∃ l1 l2, l = l1 ++ m :: l2 ∧ ∀ a ∈ l1, ge a m = false := by
  induction l generalizing m with
  | nil => simp [firstMaxBy] at h
  | cons x xs ih =>
    rw [firstMaxBy] at h
    cases h2 : firstMaxBy ge xs with
    | none =>
      rw [h2] at h
      simp only [Option.some.injEq] at h
      subst h
      exact ⟨[], xs, rfl, by simp⟩
    | some m2 =>
      rw [h2] at h
      by_cases hge : ge x m2
      · simp [hge] at h
        subst h
        exact ⟨[], xs, rfl, by simp⟩
      · simp [hge] at h
        subst h
        obtain ⟨l1, l2, heq, hall⟩ := ih m2 h2
        refine ⟨x :: l1, l2, by simp [heq], ?_⟩
        intro a ha
        rcases List.mem_cons.mp ha with rfl | ha
        · simpa using hge
        · exact hall a ha

/-! ### Order lemmas for the ranking key on signalled candidates -/

theorem pfGe_refl_pos (a : PFloat) (ha : PFloat.pfGt a (PFloat.fin 0) = true) :
    PFloat.pfGe a a = true := by
  cases a <;> simp_all [PFloat.pfGt, PFloat.pfGe, PFloat.pfEq]

theorem pfGe_total_pos (a b : PFloat)
    (ha : PFloat.pfGt a (PFloat.fin 0) = true)
    (hb : PFloat.pfGt b (PFloat.fin 0) = true) :
    PFloat.pfGe a b = true ∨ PFloat.pfGe b a = true := by
  cases a <;> cases b <;> simp_all [PFloat.pfGt, PFloat.pfGe, PFloat.pfEq]
  rename_i p q
  rcases lt_trichotomy p q with h | h | h
  · exact Or.inr (Or.inl h)
  · exact Or.inl (Or.inr h)
  · exact Or.inl (Or.inl h)

theorem pfGe_trans_pos (a b c : PFloat)
    (ha : PFloat.pfGt a (PFloat.fin 0) = true)
    (hb : PFloat.pfGt b (PFloat.fin 0) = true)
    (hc : PFloat.pfGt c (PFloat.fin 0) = true)
    (h1 : PFloat.pfGe a b = true) (h2 : PFloat.pfGe b c = true) :
    PFloat.pfGe a c = true := by
  cases a <;> cases b <;> cases c <;>
    simp_all [PFloat.pfGt, PFloat.pfGe, PFloat.pfEq]
  rcases h1 with h1 | h1 <;> rcases h2 with h2 | h2 <;>
    first
      | exact Or.inl (by linarith)
      | exact Or.inr (by linarith)

theorem rankGe_total_pos (a b : Analysis)
    (ha : PFloat.pfGt a.lastReturnPct (PFloat.fin 0) = true)
    (hb : PFloat.pfGt b.lastReturnPct (PFloat.fin 0) = true) :
    rankGe a b = true ∨ rankGe b a = true := by
  rcases Nat.lt_trichotomy a.trendScore b.trendScore with h | h | h
  · exact Or.inr (by simp [rankGe, h])
  · rcases pfGe_total_pos a.lastReturnPct b.lastReturnPct ha hb with hp | hp
    · exact Or.inl (by simp [rankGe, h, hp])
    · exact Or.inr (by simp [rankGe, h, hp])
  · exact Or.inl (by simp [rankGe, h])

theorem rankGe_trans_pos (a b c : Analysis)
    (ha : PFloat.pfGt a.lastReturnPct (PFloat.fin 0) = true)
    (hb : PFloat.pfGt b.lastReturnPct (PFloat.fin 0) = true)
    (hc : PFloat.pfGt c.lastReturnPct (PFloat.fin 0) = true)
    (h1 : rankGe a b = true) (h2 : rankGe b c = true) : rankGe a c = true := by
  simp only [rankGe, Bool.or_eq_true, Bool.and_eq_true, decide_eq_true_eq,
    beq_iff_eq] at h1 h2 ⊢
  rcases h1 with h1 | ⟨h1e, h1p⟩ <;> rcases h2 with h2 | ⟨h2e, h2p⟩
  · exact Or.inl (h2.trans h1)
  · exact Or.inl (h2e ▸ h1)
  · exact Or.inl (h1e ▸ h2)
  · exact Or.inr ⟨h1e.trans h2e,
      pfGe_trans_pos a.lastReturnPct b.lastReturnPct c.lastReturnPct ha hb hc h1p h2p⟩

theorem rankGe_of_eq_keys (a b : Analysis)
    (hb : PFloat.pfGt b.lastReturnPct (PFloat.fin 0) = true)
    (hts : a.trendScore = b.trendScore) (hlr : a.lastReturnPct = b.lastReturnPct) :
    rankGe a b = true := by
  simp [rankGe, hts, hlr, pfGe_refl_pos b.lastReturnPct hb]

/-! ### Basic shape lemmas about the indicator engine -/

theorem dailyReturns_length (closes : List ℚ) :
    (dailyReturns closes).length = closes.length := by
  cases closes with
  | nil => rfl
  | cons c cs => simp [dailyReturns]

theorem sma5List_length (closes : List ℚ) :
    (sma5List closes).length = closes.length := by
  simp [sma5List]

theorem sma5List_getElem? (closes : List ℚ) (i : ℕ) (h : i < closes.length) :
    (sma5List closes)[i]? = some (if 4 ≤ i then
      PFloat.fin (((closes.drop (i - 4)).take 5).sum / 5) else PFloat.nan) := by
  simp [sma5List, h]

theorem zipWith_getElem?_some {α β γ : Type} (f : α → β → γ) :
    ∀ (l1 : List α) (l2 : List β) (i : ℕ) (a : α) (b : β),
      l1[i]? = some a → l2[i]? = some b → (List.zipWith f l1 l2)[i]? = some (f a b)
  | [], _, i, a, b => by intro h _; simp at h
  | _ :: _, [], i, a, b => by intro _ h; simp at h
  | x :: xs, y :: ys, 0, a, b => by intro h1 h2; simp_all [List.zipWith]
  | x :: xs, y :: ys, i + 1, a, b => by
    intro h1 h2
    simp only [List.getElem?_cons_succ] at h1 h2
    simpa only [List.zipWith_cons_cons, List.getElem?_cons_succ] using
      zipWith_getElem?_some f xs ys i a b h1 h2

theorem dailyReturns_getElem?_zero (closes : List ℚ) (h : closes ≠ []) :
    (dailyReturns closes)[0]? = some PFloat.nan := by
  cases closes with
  | nil => exact absurd rfl h
  | cons c cs => simp [dailyReturns]

theorem dailyReturns_getElem?_succ (closes : List ℚ) (i : ℕ) (a b : ℚ)
    (h0 : closes[i]? = some a) (h1 : closes[i + 1]? = some b) :
    (dailyReturns closes)[i + 1]? = some (pctRet a b) := by
  cases closes with
  | nil => simp at h0
  | cons c cs =>
    simp only [dailyReturns, List.getElem?_cons_succ]
    exact zipWith_getElem?_some pctRet (c :: cs) cs i a b h0
      (by simpa only [List.getElem?_cons_succ] using h1)

theorem analyzeStock_sample :
    (analyzeStock "A" sampleDf).2 = some sampleAnalysis := by
  norm_num [analyzeStock, sampleDf, sampleCloses, sampleAnalysis, dailyReturns,
    pctRet, sma5List, tail5, List.range_succ, List.getLast?, List.getLast,
    PFloat.pfGt, List.countP_cons]

theorem analyzeStock_fst (t : String) (df : StockDf) :
    (analyzeStock t df).1 =
      { df with dailyReturnPct := some (dailyReturns df.adjClose),
                sma5 := some (sma5List df.adjClose) } := by
  simp only [analyzeStock]
  split <;> rfl

/-! ### Claim theorems -/

/-- C7: on the input series of adjusted closes [10, 11, 9, 12, 13, 14] (most
recent last), the pipeline produces a last return of (14 − 13)/13 × 100 =
100/13 (≈ 7.69), a 5-day trailing average of 59/5 = 11.8, and an analysis
with a true trade signal and reason "Price above 5-day SMA with positive
momentum". -/
theorem c7_concrete_example :
    (analyzeStock "X" ⟨[10, 11, 9, 12, 13, 14], none, none⟩).2 =
    some { ticker := "X", lastClose := 14, lastReturnPct := PFloat.fin (100/13),
           sma5 := PFloat.fin (59/5), trendScore := 4, tradeSignal := true,
           reason := "Price above 5-day SMA with positive momentum" } := by
  norm_num [analyzeStock, dailyReturns, pctRet, sma5List, tail5, List.range_succ,
    List.getLast?, List.getLast, PFloat.pfGt, List.countP_cons]

/-- C8: the indicator engine and signal classifier are deterministic with no
hidden state: re-running `analyze_stock` on the dataframe left by a first run
(same price data) yields the identical dataframe and the bit-identical
analysis. -/
theorem c8_idempotent (t : String) (df : StockDf) :
    analyzeStock t ((analyzeStock t df).1) = analyzeStock t df := by
  rw [analyzeStock_fst]
  rfl

/-- C9 counterexample: `analyze_stock` is not free of side effects on its
input: on a concrete fetched dataframe, the dataframe after the call differs
from the one passed in (two derived columns were added in place). -/
theorem c9_counterexample :
    (analyzeStock "X" ⟨[10, 11, 9, 12, 13, 14], none, none⟩).1 ≠
      ⟨[10, 11, 9, 12, 13, 14], none, none⟩ := by
  simp [analyzeStock_fst]

/-- C9 amended: the engine mutates the dataframe passed to it, assigning the
"Daily Return %" and "SMA_5" columns in place; the adjusted-close data itself
is never modified (and the orchestrator passes a copy, so the fetched raw
series is untouched). -/
theorem c9_mutates_df_only_derived (t : String) (df : StockDf) :
    ((analyzeStock t df).1).adjClose = df.adjClose ∧
    ((analyzeStock t df).1).dailyReturnPct = some (dailyReturns df.adjClose) ∧
    ((analyzeStock t df).1).sma5 = some (sma5List df.adjClose) := by
  simp [analyzeStock_fst]

/-- C4 counterexample: a nonempty three-bar series (shorter than 5 bars)
does not make classification fail with an error: `analyze_stock` returns an
analysis, and the symbol is included in the collected report. -/
theorem c4_counterexample :
    ((analyzeStock "X" ⟨[1, 2, 3], none, none⟩).2).isSome = true ∧
    (collectAnalyses [("X", (⟨[1, 2, 3], none, none⟩ : StockDf))]).length = 1 := by
  constructor
  · norm_num [analyzeStock, dailyReturns, pctRet, sma5List, tail5, List.range_succ,
      List.getLast?, List.getLast, PFloat.pfGt, List.countP_cons]
  · norm_num [collectAnalyses, analyzeStock, dailyReturns, pctRet, sma5List, tail5,
      List.range_succ, List.getLast?, List.getLast, PFloat.pfGt, List.countP_cons]

/-- C4 amended: for every nonempty price series shorter than 5 bars,
classification does not fail and the symbol is not excluded: `analyze_stock`
returns a silently defaulted analysis whose trailing average is NaN, whose
trade signal is false with reason "No strong bullish signal", and the symbol
is included in the report. -/
theorem c4_short_series_included (t : String) (df : StockDf)
    (h0 : df.adjClose ≠ []) (h5 : df.adjClose.length < 5) :
    Option.map Analysis.sma5 (analyzeStock t df).2 = some PFloat.nan ∧
    Option.map Analysis.tradeSignal (analyzeStock t df).2 = some false ∧
    Option.map Analysis.reason (analyzeStock t df).2 =
      some "No strong bullish signal" ∧
    (collectAnalyses [(t, df)]).length = 1 := by
  have hlen : 0 < df.adjClose.length := List.length_pos.mpr h0
  obtain ⟨c, hc⟩ := Option.isSome_iff_exists.mp (List.getLast?_isSome.mpr h0)
  have hrne : dailyReturns df.adjClose ≠ [] := by
    intro he
    rw [← dailyReturns_length df.adjClose, he] at hlen
    simp at hlen
  obtain ⟨r, hr⟩ := Option.isSome_iff_exists.mp (List.getLast?_isSome.mpr hrne)
  have hs : (sma5List df.adjClose).getLast? = some PFloat.nan := by
    rw [List.getLast?_eq_getElem?, sma5List_length,
      sma5List_getElem? df.adjClose (df.adjClose.length - 1) (by omega),
      if_neg (by omega)]
  simp [analyzeStock, collectAnalyses, hc, hr, hs, PFloat.pfGt]

theorem c4_short_series_included_witness :
    Option.map Analysis.tradeSignal
      (analyzeStock "W" ⟨[1, 2, 3], none, none⟩).2 = some false ∧
    (collectAnalyses [("W", (⟨[1, 2, 3], none, none⟩ : StockDf))]).length = 1 :=
  ⟨(c4_short_series_included "W" ⟨[1, 2, 3], none, none⟩ (by simp) (by norm_num)).2.1,
   (c4_short_series_included "W" ⟨[1, 2, 3], none, none⟩ (by simp) (by norm_num)).2.2.2⟩

/-- C5 counterexample: a series whose first close is zero does not make
indicator computation fail with an error: the affected return becomes +inf
and the pipeline still produces an analysis. -/
theorem c5_counterexample :
    dailyReturns [0, 1, 2, 3, 4, 5] =
      [PFloat.nan, PFloat.pinf, PFloat.fin 100, PFloat.fin 50,
       PFloat.fin (100/3), PFloat.fin 25] ∧
    ((analyzeStock "X" ⟨[0, 1, 2, 3, 4, 5], none, none⟩).2).isSome = true := by
  constructor
  · norm_num [dailyReturns, pctRet]
  · norm_num [analyzeStock, dailyReturns, pctRet, sma5List, tail5, List.range_succ,
      List.getLast?, List.getLast, PFloat.pfGt, List.countP_cons]

/-- C5 amended: division by a previous adjusted close of zero does not fail
with an error: the affected daily return becomes +inf when the current close
is positive, -inf when it is negative, and NaN when it is zero, and the
computation continues. -/
theorem c5_zero_prev_close_no_error (closes : List ℚ) (i : ℕ) (c : ℚ)
    (h0 : closes[i]? = some 0) (h1 : closes[i + 1]? = some c) :
    (dailyReturns closes)[i + 1]? =
      some (if 0 < c then PFloat.pinf else if c < 0 then PFloat.ninf
            else PFloat.nan) := by
  rw [dailyReturns_getElem?_succ closes i 0 c h0 h1]
  simp [pctRet]

theorem c5_zero_prev_close_no_error_witness :
    (dailyReturns [0, 1, 2, 3, 4, 5])[1]? = some PFloat.pinf := by
  have h := c5_zero_prev_close_no_error [0, 1, 2, 3, 4, 5] 0 1 rfl rfl
  norm_num at h
  exact h

/-- C1: for every analysis the classifier produces, the trade signal is true
iff the last close is strictly above the 5-day trailing average and the last
return is strictly positive; in that case the reason is "Price above 5-day
SMA with positive momentum", otherwise the signal is false with reason
"No strong bullish signal", and equality of last close with the trailing
average falls into the false branch. -/
theorem c1_trade_signal_iff (t : String) (df : StockDf) (a : Analysis)
    (h : (analyzeStock t df).2 = some a) :
    (a.tradeSignal = true ↔
      (PFloat.pfGt (PFloat.fin a.lastClose) a.sma5 = true ∧
       PFloat.pfGt a.lastReturnPct (PFloat.fin 0) = true)) ∧
    (a.tradeSignal = true →
      a.reason = "Price above 5-day SMA with positive momentum") ∧
    (a.tradeSignal = false → a.reason = "No strong bullish signal") ∧
    (a.sma5 = PFloat.fin a.lastClose → a.tradeSignal = false) := by
  simp only [analyzeStock] at h
  rcases h1 : df.adjClose.getLast? with _ | c <;> rw [h1] at h
  · simp at h
  rcases h2 : (dailyReturns df.adjClose).getLast? with _ | r <;> rw [h2] at h
  · simp at h
  rcases h3 : (sma5List df.adjClose).getLast? with _ | s <;> rw [h3] at h
  · simp at h
  simp only [Option.some.injEq] at h
  subst h
  refine ⟨by simp [Bool.and_eq_true], ?_, ?_, ?_⟩
  · intro hs
    simp only at hs
    simp [hs]
  · intro hs
    simp only at hs
    simp [hs]
  · intro hs
    simp only at hs ⊢
    subst hs
    simp [PFloat.pfGt]

theorem c1_trade_signal_iff_witness :
    sampleAnalysis.tradeSignal = true ∧
    sampleAnalysis.reason = "Price above 5-day SMA with positive momentum" :=
  ⟨rfl, (c1_trade_signal_iff "A" sampleDf sampleAnalysis analyzeStock_sample).2.1 rfl⟩

/-- C2: for every analysis the classifier produces, the trend score is the
count of strictly positive daily returns among the most recent 5 indicator
rows (only existing rows are counted when fewer than 5 exist), and is at
most 5. -/
theorem c2_trend_score (t : String) (df : StockDf) (a : Analysis)
    (h : (analyzeStock t df).2 = some a) :
    a.trendScore = ((tail5 (dailyReturns df.adjClose)).countP
      fun r => PFloat.pfGt r (PFloat.fin 0)) ∧ a.trendScore ≤ 5 := by
  simp only [analyzeStock] at h
  rcases h1 : df.adjClose.getLast? with _ | c <;> rw [h1] at h
  · simp at h
  rcases h2 : (dailyReturns df.adjClose).getLast? with _ | r <;> rw [h2] at h
  · simp at h
  rcases h3 : (sma5List df.adjClose).getLast? with _ | s <;> rw [h3] at h
  · simp at h
  simp only [Option.some.injEq] at h
  subst h
  constructor
  · rfl
  · refine le_trans (List.countP_le_length _) ?_
    simp only [tail5, List.length_drop]
    omega

theorem c2_trend_score_witness :
    sampleAnalysis.trendScore = 4 ∧ sampleAnalysis.trendScore ≤ 5 :=
  ⟨rfl, (c2_trend_score "A" sampleDf sampleAnalysis analyzeStock_sample).2⟩

/-- C3: the ranker keeps only signalled records; it returns the valid
"no candidate" outcome exactly when none remain; otherwise it selects a
signalled candidate from the collection whose composite key
(trend score, then last return) is at least every other candidate's. -/
theorem c3_ranker (analyses : List Analysis)
    (hpos : ∀ a ∈ analyses, a.tradeSignal = true →
      PFloat.pfGt a.lastReturnPct (PFloat.fin 0) = true) :
    (suggestBestTrade analyses = none ↔
      analyses.filter (fun a => a.tradeSignal) = []) ∧
    ∀ b, suggestBestTrade analyses = some b →
      b ∈ analyses.filter (fun a => a.tradeSignal) ∧ b.tradeSignal = true ∧
      ∀ a ∈ analyses.filter (fun a => a.tradeSignal), rankGe b a = true := by
  have hposc : ∀ a ∈ analyses.filter (fun a => a.tradeSignal),
      PFloat.pfGt a.lastReturnPct (PFloat.fin 0) = true := by
    intro a ha
    have hm := List.mem_filter.mp ha
    exact hpos a hm.1 hm.2
  constructor
  · simp only [suggestBestTrade]
    split
    next he => simp_all [List.isEmpty_iff]
    next he => rw [sortDesc_head]; exact firstMaxBy_eq_none rankGe _
  · intro b hb
    have hb' : firstMaxBy rankGe (analyses.filter fun a => a.tradeSignal)
        = some b := by
      simp only [suggestBestTrade] at hb
      split at hb
      · cases hb
      · rw [sortDesc_head] at hb; exact hb
    have hmem := firstMaxBy_mem rankGe _ b hb'
    refine ⟨hmem, (List.mem_filter.mp hmem).2, ?_⟩
    refine firstMaxBy_max rankGe _ b ?_ ?_ hb'
    · intro x hx y hy
      exact rankGe_total_pos x y (hposc x hx) (hposc y hy)
    · intro x hx y hy z hz
      exact rankGe_trans_pos x y z (hposc x hx) (hposc y hy) (hposc z hz)

theorem c3_ranker_witness :
    suggestBestTrade rankList = some rankB ∧ rankGe rankB rankA = true := by
  have hsel : suggestBestTrade rankList = some rankB := by
    norm_num [suggestBestTrade, sortDesc, insertDesc, rankGe, rankList,
      rankA, rankB, rankC, PFloat.pfGe, PFloat.pfGt, PFloat.pfEq]
  have h3 := c3_ranker rankList (by
    intro a ha hs
    simp only [rankList, List.mem_cons, List.not_mem_nil, or_false] at ha
    rcases ha with rfl | rfl | rfl
    · norm_num [rankA, PFloat.pfGt]
    · norm_num [rankB, PFloat.pfGt]
    · simp [rankC] at hs)
  exact ⟨hsel, (h3.2 rankB hsel).2.2 rankA (by simp [rankList, rankA, rankB, rankC])⟩

/-- C10: when the selected candidate shares its composite key with other
signalled candidates, it is the earliest such candidate in the input order:
the filtered list splits as `l1 ++ b :: l2` where `b` beats every candidate
and nothing in the preceding prefix `l1` has `b`'s (maximal) key pair. -/
theorem c10_tie_first_wins (analyses : List Analysis) (b : Analysis)
    (hpos : ∀ a ∈ analyses, a.tradeSignal = true →
      PFloat.pfGt a.lastReturnPct (PFloat.fin 0) = true)
    (h : suggestBestTrade analyses = some b) :
    ∃ l1 l2, analyses.filter (fun a => a.tradeSignal) = l1 ++ b :: l2 ∧
      (∀ a ∈ analyses.filter (fun a => a.tradeSignal), rankGe b a = true) ∧
      ∀ a ∈ l1, ¬(a.trendScore = b.trendScore ∧
        a.lastReturnPct = b.lastReturnPct) := by
  have hposc : ∀ a ∈ analyses.filter (fun a => a.tradeSignal),
      PFloat.pfGt a.lastReturnPct (PFloat.fin 0) = true := by
    intro a ha
    have hm := List.mem_filter.mp ha
    exact hpos a hm.1 hm.2
  have hb' : firstMaxBy rankGe (analyses.filter fun a => a.tradeSignal)
      = some b := by
    simp only [suggestBestTrade] at h
    split at h
    · cases h
    · rw [sortDesc_head] at h; exact h
  have hmem := firstMaxBy_mem rankGe _ b hb'
  have hbpos := hposc b hmem
  have hmax : ∀ a ∈ analyses.filter (fun a => a.tradeSignal),
      rankGe b a = true := by
    refine firstMaxBy_max rankGe _ b ?_ ?_ hb'
    · intro x hx y hy
      exact rankGe_total_pos x y (hposc x hx) (hposc y hy)
    · intro x hx y hy z hz
      exact rankGe_trans_pos x y z (hposc x hx) (hposc y hy) (hposc z hz)
  obtain ⟨l1, l2, heq, hlt⟩ := firstMaxBy_split rankGe _ b hb'
  refine ⟨l1, l2, heq, hmax, ?_⟩
  intro a ha hk
  have hgt := rankGe_of_eq_keys a b hbpos hk.1 hk.2
  rw [hlt a ha] at hgt
  cases hgt

theorem c10_tie_first_wins_witness :
    suggestBestTrade tieList = some tieD ∧ rankGe tieD tieE = true := by
  have hsel : suggestBestTrade tieList = some tieD := by
    norm_num [suggestBestTrade, sortDesc, insertDesc, rankGe, tieList,
      tieD, tieE, PFloat.pfGe, PFloat.pfGt, PFloat.pfEq]
  obtain ⟨l1, l2, heq, hmax, hne⟩ := c10_tie_first_wins tieList tieD (by
    intro a ha hs
    simp only [tieList, List.mem_cons, List.not_mem_nil, or_false] at ha
    rcases ha with rfl | rfl
    · norm_num [tieD, PFloat.pfGt]
    · norm_num [tieE, PFloat.pfGt]) hsel
  exact ⟨hsel, hmax tieE (by simp [tieList, tieD, tieE])⟩

/-- C6: for every price series of length at least 6, the indicator engine
yields one daily-return entry and one trailing-average entry per input bar,
in input order (entry i + 1 is computed from closes i and i + 1, and entry i
of the trailing average from the five closes ending at i); the first return
is undefined (NaN) and the trailing average is undefined (NaN) at indices
0 through 3. -/
theorem c6_engine_shape (closes : List ℚ) (h : 6 ≤ closes.length) :
    (dailyReturns closes).length = closes.length ∧
    (sma5List closes).length = closes.length ∧
    (dailyReturns closes)[0]? = some PFloat.nan ∧
    (∀ i, i < 4 → (sma5List closes)[i]? = some PFloat.nan) ∧
    (∀ i a b, closes[i]? = some a → closes[i + 1]? = some b →
      (dailyReturns closes)[i + 1]? = some (pctRet a b)) ∧
    ∀ i, 4 ≤ i → i < closes.length →
      (sma5List closes)[i]? =
        some (PFloat.fin (((closes.drop (i - 4)).take 5).sum / 5)) := by
  have hne : closes ≠ [] := by
    intro he
    rw [he] at h
    simp at h
  refine ⟨dailyReturns_length closes, sma5List_length closes,
    dailyReturns_getElem?_zero closes hne, ?_, ?_, ?_⟩
  · intro i hi
    rw [sma5List_getElem? closes i (by omega), if_neg (by omega)]
  · intro i a b ha hb
    exact dailyReturns_getElem?_succ closes i a b ha hb
  · intro i h4 hi
    rw [sma5List_getElem? closes i hi, if_pos h4]

theorem c6_engine_shape_witness :
    (dailyReturns sampleCloses).length = 6 ∧
    (sma5List sampleCloses)[2]? = some PFloat.nan := by
  have h := c6_engine_shape sampleCloses (by norm_num [sampleCloses])
  refine ⟨?_, h.2.2.2.1 2 (by norm_num)⟩
  rw [h.1]
  norm_num [sampleCloses]
